/-
Verification of the Feistel-based cryptographic algorithm (src/main.py).

The Python source is shallowly embedded: bytes are `List Nat` (each entry a
byte value), machine integers are `Nat` with explicit masking where the
source masks, and the two Python exception sites (`ValueError` for invalid
padding, `IndexError` for indexing into an empty bytes object) become an
explicit error type `PyErr` with `Except`.

The session S-box globals `s_box_nibble` / `inverse_s_box_nibble` are passed
as explicit parameters `sb` / `isb` to the functions that read them.
-/
import Mathlib

namespace Feistel

/-- Python exceptions that the embedded code can raise:
`ValueError("Invalid padding detected.")` and `IndexError` (from `data[-1]`
on an empty buffer). -/
inductive PyErr where
  | invalidPadding : PyErr
  | indexError : PyErr
  deriving DecidableEq, Repr

/-- Python's parallel assignment `x[i], x[j] = x[j], x[i]` inside
`random.shuffle`: swap the entries of `l` at positions `i` and `j`. -/
def swapList (l : List Nat) (i j : Nat) : List Nat :=
  (l.set i (l.getD j 0)).set j (l.getD i 0)

/-- Modelled from the spec: the seeded pseudo-random generator behind
`random.Random(key)` (CPython's Mersenne Twister, not part of this
repository's sources).  The spec only requires a deterministic seeded
stream ("exact shuffle algorithm is an implementation choice, but it must
be seedable and deterministic"), so any fixed mixing function serves. -/
def rngWord (seed i : Nat) : Nat :=
  (seed * 2654435761 + i * 40503 + 1) % 4294967296

/-- Modelled from the spec: `random.Random._randbelow(n)` — a
deterministic seed-derived value strictly below `n` (for `n > 0`). -/
def randbelow (seed i n : Nat) : Nat :=
  rngWord seed i % n

/-- Modelled from the spec: `rng.shuffle(box)` — CPython's Fisher-Yates
loop `for i in reversed(range(1, len(x))): j = _randbelow(i+1); swap`,
with the random draws supplied by `randbelow`.  `fyLoop seed n l`
performs the swaps for positions `n, n-1, ..., 1`. -/
def fyLoop (seed : Nat) : Nat → List Nat → List Nat
  | 0, l => l
  | n + 1, l => fyLoop seed n (swapList l (n + 1) (randbelow seed (n + 1) (n + 2)))

/-- `generate_s_box` from src/main.py lines 34-46: shuffle `list(range(16))`
with the key-seeded generator, then build the inverse table by
`for i, val in enumerate(box): inv_box[val] = i` starting from `[0]*16`. -/
def generate_s_box (key : Nat) : List Nat × List Nat :=
  let box := fyLoop key 15 (List.range 16)
  let inv_box := box.enum.foldl (fun acc p => acc.set p.2 p.1) (List.replicate 16 0)
  (box, inv_box)

/-- `lfsr_step` from src/main.py lines 17-31: advance the 32-bit LFSR one
step with taps at bit positions 0, 1, 21 and 31; returns the new state
twice (state and output word). -/
def lfsr_step (state : Nat) : Nat × Nat :=
  let b0 := (state >>> 0) &&& 1
  let b1 := (state >>> 1) &&& 1
  let b21 := (state >>> 21) &&& 1
  let b31 := (state >>> 31) &&& 1
  let new_bit := ((b0 ^^^ b1) ^^^ b21) ^^^ b31
  let shifted := (state >>> 1) &&& 0x7FFFFFFF
  let state2 := if new_bit = 1 then shifted ||| (1 <<< 31) else shifted
  (state2, state2)

/-- Iterate `lfsr_step` `n` times from `s`, returning the final state. -/
def lfsrIter : Nat → Nat → Nat
  | 0, s => s
  | n + 1, s => lfsrIter n (lfsr_step s).1

/-- The subkey-generation loop shared by `encrypt_block` and
`decrypt_block` (src/main.py lines 126-130 and 157-161): advance the LFSR
`rounds` times, collecting each output word truncated to 16 bits, in
generation order.  Returns the final LFSR state and the subkey list. -/
def gen_subkeys : Nat → Nat → Nat × List Nat
  | st, 0 => (st, [])
  | st, r + 1 =>
      let p := lfsr_step st
      let rest := gen_subkeys p.1 r
      (rest.1, (p.2 &&& 0xFFFF) :: rest.2)

/-- `s_box` from src/main.py lines 52-62: substitute each of the four
nibbles of a 16-bit value through the table `sb` (the session
`s_box_nibble`; Python indexes `sb[nibble]`, total because the table has
16 entries — out-of-range reads are modelled with default 0). -/
def s_box (sb : List Nat) (x : Nat) : Nat :=
  (List.range 4).foldl
    (fun result i => result ||| ((sb.getD ((x >>> (i * 4)) &&& 0xF) 0) <<< (i * 4))) 0

/-- `inverse_s_box` from src/main.py lines 64-73: same loop over the
inverse table `isb` (the session `inverse_s_box_nibble`). -/
def inverse_s_box (isb : List Nat) (x : Nat) : Nat :=
  (List.range 4).foldl
    (fun result i => result ||| ((isb.getD ((x >>> (i * 4)) &&& 0xF) 0) <<< (i * 4))) 0

/-- `p_box` from src/main.py lines 76-86: the bit at position `i` of a
16-bit value moves to position `(i * 3) % 16`. -/
def p_box (x : Nat) : Nat :=
  (List.range 16).foldl
    (fun result i => result ||| (((x >>> i) &&& 1) <<< ((i * 3) % 16))) 0

/-- The hard-coded inverse mapping dictionary of `inverse_p_box`
(src/main.py lines 93-98).  Only keys 0-15 are ever looked up. -/
def invPboxMapping : Nat → Nat
  | 0 => 0 | 1 => 11 | 2 => 6 | 3 => 1
  | 4 => 12 | 5 => 7 | 6 => 2 | 7 => 13
  | 8 => 8 | 9 => 3 | 10 => 14 | 11 => 9
  | 12 => 4 | 13 => 15 | 14 => 10 | _ => 5

/-- `inverse_p_box` from src/main.py lines 88-104: moves the bit at
position `i` to position `mapping[i]`. -/
def inverse_p_box (x : Nat) : Nat :=
  (List.range 16).foldl
    (fun result i => result ||| (((x >>> i) &&& 1) <<< (invPboxMapping i))) 0

/-- `round_function` from src/main.py lines 107-111:
`F(x, subkey) = p_box(s_box(x)) XOR (subkey & 0xFFFF)`. -/
def round_function (sb : List Nat) (x subkey : Nat) : Nat :=
  p_box (s_box sb x) ^^^ (subkey &&& 0xFFFF)

/-- The encryption round loop of `encrypt_block` (src/main.py lines
137-141), consuming subkeys in generation order:
`(L, R) := (R, L XOR F(R, subkey))`. -/
def enc_rounds (sb : List Nat) : List Nat → Nat × Nat → Nat × Nat
  | [], lr => lr
  | sk :: rest, (l, r) => enc_rounds sb rest (r, l ^^^ round_function sb r sk)

/-- The decryption round loop of `decrypt_block` (src/main.py lines
168-172), consuming subkeys in the order given (the caller passes the
reversed subkey list): `(L, R) := (R XOR F(L, subkey), L)`. -/
def dec_rounds (sb : List Nat) : List Nat → Nat × Nat → Nat × Nat
  | [], lr => lr
  | sk :: rest, (l, r) => dec_rounds sb rest (r ^^^ round_function sb l sk, l)

/-- `encrypt_block` from src/main.py lines 113-144 (the `print_subkeys`
console output is ignored): split the block into 16-bit halves, draw
`rounds` subkeys from the LFSR, run the Feistel rounds, reassemble. -/
def encrypt_block (sb : List Nat) (block lfsr_state rounds : Nat) : Nat × Nat :=
  let l0 := (block >>> 16) &&& 0xFFFF
  let r0 := block &&& 0xFFFF
  let g := gen_subkeys lfsr_state rounds
  let lr := enc_rounds sb g.2 (l0, r0)
  (((lr.1 &&& 0xFFFF) <<< 16) ||| (lr.2 &&& 0xFFFF), g.1)

/-- `decrypt_block` from src/main.py lines 146-175: identical subkey
generation, then the inverse rounds over the reversed subkey list. -/
def decrypt_block (sb : List Nat) (block lfsr_state rounds : Nat) : Nat × Nat :=
  let l0 := (block >>> 16) &&& 0xFFFF
  let r0 := block &&& 0xFFFF
  let g := gen_subkeys lfsr_state rounds
  let lr := dec_rounds sb g.2.reverse (l0, r0)
  (((lr.1 &&& 0xFFFF) <<< 16) ||| (lr.2 &&& 0xFFFF), g.1)

/-- `pad_pkcs7` from src/main.py lines 178-185: append `pad_len` bytes of
value `pad_len` where `pad_len = block_size - len(data) % block_size`
(the `if pad_len == 0` branch is kept from the source even though
Nat subtraction already never makes it fire for positive block sizes). -/
def pad_pkcs7 (data : List Nat) (block_size : Nat) : List Nat :=
  let pad_len := block_size - data.length % block_size
  let pad_len := if pad_len = 0 then block_size else pad_len
  data ++ List.replicate pad_len pad_len

/-- Python slice `data[-n:]` for `n ≥ 1`: the last `n` elements (the whole
list when `n` exceeds the length). -/
def lastSlice (data : List Nat) (n : Nat) : List Nat :=
  data.drop (data.length - n)

/-- Python slice `data[:-n]` for `n ≥ 1`: everything but the last `n`
elements. -/
def dropLastSlice (data : List Nat) (n : Nat) : List Nat :=
  data.take (data.length - n)

/-- `unpad_pkcs7` from src/main.py lines 187-196.  `data[-1]` on an empty
buffer raises `IndexError`; the two validity checks raise
`ValueError("Invalid padding detected.")`. -/
def unpad_pkcs7 (data : List Nat) (block_size : Nat) : Except PyErr (List Nat) :=
  match data.getLast? with
  | none => .error .indexError
  | some pad_len =>
      if pad_len < 1 ∨ pad_len > block_size then .error .invalidPadding
      else if (lastSlice data pad_len).any (fun p => p ≠ pad_len) then
        .error .invalidPadding
      else .ok (dropLastSlice data pad_len)

/-- Python `int.from_bytes(chunk, byteorder='big')`. -/
def int_from_bytes_be (l : List Nat) : Nat :=
  l.foldl (fun acc b => 256 * acc + b) 0

/-- Python `block.to_bytes(4, byteorder='big')` (defined for
`block < 2^32`; Python raises OverflowError above that, which never
happens on this code's call sites). -/
def int_to_bytes_be_4 (b : Nat) : List Nat :=
  [(b >>> 24) &&& 0xFF, (b >>> 16) &&& 0xFF, (b >>> 8) &&& 0xFF, b &&& 0xFF]

/-- `bytes_to_blocks` from src/main.py lines 198-207: chunk the bytes four
at a time (the final chunk may be shorter, exactly as Python's
`data[i:i+4]` slicing produces) and read each chunk big-endian. -/
def bytes_to_blocks : List Nat → List Nat
  | a :: b :: c :: d :: rest => int_from_bytes_be [a, b, c, d] :: bytes_to_blocks rest
  | [] => []
  | l => [int_from_bytes_be l]

/-- `blocks_to_bytes` from src/main.py lines 209-216: emit each block as 4
big-endian bytes, concatenated in order. -/
def blocks_to_bytes : List Nat → List Nat
  | [] => []
  | b :: rest => int_to_bytes_be_4 b ++ blocks_to_bytes rest

/-- The sequential block-encryption loop of `encrypt_message`
(src/main.py lines 229-235): thread the LFSR state through the blocks. -/
def encrypt_blocks (sb : List Nat) (rounds : Nat) : List Nat → Nat → List Nat × Nat
  | [], st => ([], st)
  | b :: bs, st =>
      let p := encrypt_block sb b st rounds
      let rest := encrypt_blocks sb rounds bs p.2
      (p.1 :: rest.1, rest.2)

/-- The sequential block-decryption loop of `decrypt_message`
(src/main.py lines 248-253). -/
def decrypt_blocks (sb : List Nat) (rounds : Nat) : List Nat → Nat → List Nat × Nat
  | [], st => ([], st)
  | b :: bs, st =>
      let p := decrypt_block sb b st rounds
      let rest := decrypt_blocks sb rounds bs p.2
      (p.1 :: rest.1, rest.2)

/-- `encrypt_message` from src/main.py lines 218-237: pad, chunk into
blocks, encrypt sequentially from `lfsr_state = key_32`, re-serialize. -/
def encrypt_message (sb : List Nat) (plaintext : List Nat) (key_32 rounds : Nat) : List Nat :=
  let padded := pad_pkcs7 plaintext 4
  let blocks := bytes_to_blocks padded
  blocks_to_bytes (encrypt_blocks sb rounds blocks key_32).1

/-- `decrypt_message` from src/main.py lines 239-256: chunk into blocks,
decrypt sequentially from `lfsr_state = key_32`, re-serialize, unpad. -/
def decrypt_message (sb : List Nat) (ciphertext : List Nat) (key_32 rounds : Nat) :
    Except PyErr (List Nat) :=
  let blocks := bytes_to_blocks ciphertext
  let decrypted := (decrypt_blocks sb rounds blocks key_32).1
  unpad_pkcs7 (blocks_to_bytes decrypted) 4

/-! ## Generic bit-level helper lemmas -/

theorem testBit_mod_two (y k : Nat) :
    ((y % 2).testBit k) = (decide (k = 0) && y.testBit 0) := by
  rcases k with _ | k
  · simp [Nat.testBit_zero, Nat.mod_mod]
  · have h1 : y % 2 < 2 ^ (k + 1) := by
      have h2 : y % 2 < 2 := Nat.mod_lt y (by omega)
      have h3 : (2 : Nat) ≤ 2 ^ (k + 1) := by
        calc (2 : Nat) = 2 ^ 1 := by norm_num
        _ ≤ 2 ^ (k + 1) := Nat.pow_le_pow_right (by omega) (by omega)
      omega
    simp [Nat.testBit_lt_two_pow h1]

theorem foldl_or_lt {n : Nat} (f : Nat → Nat) (l : List Nat) (acc : Nat)
    (hacc : acc < 2 ^ n) (hf : ∀ i ∈ l, f i < 2 ^ n) :
    (l.foldl (fun r i => r ||| f i) acc) < 2 ^ n := by
  induction l generalizing acc with
  | nil => exact hacc
  | cons a t ih =>
      exact ih _ (Nat.or_lt_two_pow hacc (hf a (by simp)))
        (fun i hi => hf i (by simp [hi]))

theorem and_one_shift_lt (y c : Nat) (h : c < 16) : (y &&& 1) <<< c < 2 ^ 16 := by
  have h1 : y &&& 1 < 2 ^ 1 := by
    have := Nat.and_le_right (n := y) (m := 1)
    omega
  have h2 := Nat.shiftLeft_lt (m := c) h1
  calc (y &&& 1) <<< c < 2 ^ (1 + c) := h2
  _ ≤ 2 ^ 16 := Nat.pow_le_pow_right (by omega) (by omega)

/-! ## P-box: bit-level characterization (claim C5) -/

theorem p_box_eq (x : Nat) : p_box x =
    ((((((((((((((((0 ||| (((x >>> 0) &&& 1) <<< 0)) |||
      (((x >>> 1) &&& 1) <<< 3)) |||
      (((x >>> 2) &&& 1) <<< 6)) |||
      (((x >>> 3) &&& 1) <<< 9)) |||
      (((x >>> 4) &&& 1) <<< 12)) |||
      (((x >>> 5) &&& 1) <<< 15)) |||
      (((x >>> 6) &&& 1) <<< 2)) |||
      (((x >>> 7) &&& 1) <<< 5)) |||
      (((x >>> 8) &&& 1) <<< 8)) |||
      (((x >>> 9) &&& 1) <<< 11)) |||
      (((x >>> 10) &&& 1) <<< 14)) |||
      (((x >>> 11) &&& 1) <<< 1)) |||
      (((x >>> 12) &&& 1) <<< 4)) |||
      (((x >>> 13) &&& 1) <<< 7)) |||
      (((x >>> 14) &&& 1) <<< 10)) |||
      (((x >>> 15) &&& 1) <<< 13)) := rfl

theorem inverse_p_box_eq (x : Nat) : inverse_p_box x =
    ((((((((((((((((0 ||| (((x >>> 0) &&& 1) <<< 0)) |||
      (((x >>> 1) &&& 1) <<< 11)) |||
      (((x >>> 2) &&& 1) <<< 6)) |||
      (((x >>> 3) &&& 1) <<< 1)) |||
      (((x >>> 4) &&& 1) <<< 12)) |||
      (((x >>> 5) &&& 1) <<< 7)) |||
      (((x >>> 6) &&& 1) <<< 2)) |||
      (((x >>> 7) &&& 1) <<< 13)) |||
      (((x >>> 8) &&& 1) <<< 8)) |||
      (((x >>> 9) &&& 1) <<< 3)) |||
      (((x >>> 10) &&& 1) <<< 14)) |||
      (((x >>> 11) &&& 1) <<< 9)) |||
      (((x >>> 12) &&& 1) <<< 4)) |||
      (((x >>> 13) &&& 1) <<< 15)) |||
      (((x >>> 14) &&& 1) <<< 10)) |||
      (((x >>> 15) &&& 1) <<< 5)) := rfl

theorem p_box_lt (x : Nat) : p_box x < 2 ^ 16 := by
  apply foldl_or_lt (f := fun i => ((x >>> i) &&& 1) <<< ((i * 3) % 16))
  · norm_num
  · intro i _
    exact and_one_shift_lt _ _ (Nat.mod_lt _ (by omega))

theorem inverse_p_box_lt (x : Nat) : inverse_p_box x < 2 ^ 16 := by
  apply foldl_or_lt (f := fun i => ((x >>> i) &&& 1) <<< (invPboxMapping i))
  · norm_num
  · intro i hi
    apply and_one_shift_lt
    fin_cases hi <;> simp [invPboxMapping]

theorem p_box_moves (x j : Nat) (hj : j < 16) :
    (p_box x).testBit ((j * 3) % 16) = x.testBit j := by
  interval_cases j <;>
    (rw [p_box_eq]
     simp [Nat.testBit_or, Nat.testBit_shiftLeft, Nat.and_one_is_mod,
       testBit_mod_two, Nat.testBit_shiftRight])

theorem inverse_p_box_bit (y i : Nat) (hi : i < 16) :
    (inverse_p_box y).testBit i = y.testBit ((i * 3) % 16) := by
  interval_cases i <;>
    (rw [inverse_p_box_eq]
     simp [Nat.testBit_or, Nat.testBit_shiftLeft, Nat.and_one_is_mod,
       testBit_mod_two, Nat.testBit_shiftRight])

theorem inverse_p_box_p_box (x : Nat) (hx : x < 2 ^ 16) :
    inverse_p_box (p_box x) = x := by
  apply Nat.eq_of_testBit_eq
  intro i
  by_cases hi : i < 16
  · rw [inverse_p_box_bit _ i hi, p_box_moves x i hi]
  · have h16 : (2 : Nat) ^ 16 ≤ 2 ^ i := Nat.pow_le_pow_right (by omega) (by omega)
    have hb := inverse_p_box_lt (p_box x)
    rw [Nat.testBit_lt_two_pow (by omega), Nat.testBit_lt_two_pow (by omega)]

/-- C5: `p_box` moves the bit at each position `i` (0-15) to position
`(i*3) mod 16`, and for every 16-bit `x`, `inverse_p_box (p_box x) = x`
(the hard-coded inverse mapping table is the exact inverse of the
multiply-by-3 bit permutation). -/
theorem claim_C5_pbox_inverse :
    (∀ x j, j < 16 → (p_box x).testBit ((j * 3) % 16) = x.testBit j) ∧
    (∀ x, x < 2 ^ 16 → inverse_p_box (p_box x) = x) :=
  ⟨fun x j hj => p_box_moves x j hj, fun x hx => inverse_p_box_p_box x hx⟩

/-- Witness for C5 at the concrete input `x = 0x1234`, `j = 1`. -/
theorem claim_C5_pbox_inverse_witness :
    (p_box 0x1234).testBit ((1 * 3) % 16) = (0x1234 : Nat).testBit 1 ∧
    inverse_p_box (p_box 0x1234) = 0x1234 :=
  ⟨claim_C5_pbox_inverse.1 0x1234 1 (by decide),
   claim_C5_pbox_inverse.2 0x1234 (by decide)⟩

/-! ## LFSR step characterization (claim C3) -/

theorem shift_and_one_eq (s k : Nat) : (s >>> k) &&& 1 = (s.testBit k).toNat := by
  rw [Nat.and_one_is_mod, Nat.shiftRight_eq_div_pow, Nat.testBit_to_div_mod]
  rcases Nat.mod_two_eq_zero_or_one (s / 2 ^ k) with h | h <;> simp [h]

theorem tb_mask (i : Nat) : Nat.testBit 2147483647 i = decide (i < 31) := by
  have h := Nat.testBit_two_pow_sub_one 31 i
  norm_num at h
  exact h

theorem tb_top (i : Nat) : Nat.testBit 2147483648 i = decide (31 = i) := by
  have h := Nat.testBit_two_pow (n := 31) (m := i)
  norm_num at h
  exact h

theorem lfsr_step_fst_testBit (s i : Nat) :
    (lfsr_step s).1.testBit i =
      ((s.testBit (i + 1) && decide (i < 31)) ||
        (decide (31 = i) &&
          ((((s.testBit 0).xor (s.testBit 1)).xor (s.testBit 21)).xor (s.testBit 31)))) := by
  have h31 : (1 : Nat) <<< 31 = 2147483648 := by norm_num [Nat.shiftLeft_eq]
  unfold lfsr_step
  simp only [shift_and_one_eq, h31]
  rcases hA : s.testBit 0 <;> rcases hB : s.testBit 1 <;>
    rcases hC : s.testBit 21 <;> rcases hD : s.testBit 31 <;>
      simp [Nat.testBit_or, Nat.testBit_and, Nat.testBit_shiftRight, tb_mask, tb_top,
        Nat.add_comm]

theorem lfsr_step_fst_lt (s : Nat) : (lfsr_step s).1 < 2 ^ 32 := by
  unfold lfsr_step
  have h1 : (s >>> 1) &&& 2147483647 ≤ 2147483647 := Nat.and_le_right
  dsimp only
  split
  · refine Nat.or_lt_two_pow ?_ ?_
    · have h2 : (2147483647 : Nat) < 2 ^ 32 := by norm_num
      omega
    · norm_num [Nat.shiftLeft_eq]
  · have h2 : (2147483647 : Nat) < 2 ^ 32 := by norm_num
    omega

/-- C3: `lfsr_step s` computes the feedback bit as the XOR of bits 0, 1,
21 and 31 of `s`, shifts right one bit with the top bit cleared, places
the feedback bit at bit 31, and returns the full new 32-bit state as both
components; `lfsr_step 0 = (0, 0)`, so the all-zero state is a fixed
point. -/
theorem claim_C3_lfsr_step (s : Nat) :
    (lfsr_step s).2 = (lfsr_step s).1 ∧
    (lfsr_step s).1 < 2 ^ 32 ∧
    (∀ i, i < 31 → (lfsr_step s).1.testBit i = s.testBit (i + 1)) ∧
    ((lfsr_step s).1.testBit 31 =
      (((s.testBit 0).xor (s.testBit 1)).xor (s.testBit 21)).xor (s.testBit 31)) ∧
    lfsr_step 0 = (0, 0) := by
  refine ⟨rfl, lfsr_step_fst_lt s, ?_, ?_, by decide⟩
  · intro i hi
    rw [lfsr_step_fst_testBit]
    have hne : 31 ≠ i := by omega
    simp [hi, hne]
  · rw [lfsr_step_fst_testBit]
    simp

/-- Witness for C3 at `s = 5`, `i = 3`. -/
theorem claim_C3_lfsr_step_witness :
    (3 : Nat) < 31 ∧ (lfsr_step 5).1.testBit 3 = (5 : Nat).testBit 4 :=
  ⟨by decide, (claim_C3_lfsr_step 5).2.2.1 3 (by decide)⟩

/-! ## Arithmetic views of the 16/32-bit masking operations -/

theorem and_FFFF (x : Nat) : x &&& 0xFFFF = x % 65536 := by
  have h := Nat.and_pow_two_sub_one_eq_mod x 16
  norm_num at h
  exact h

theorem and_FF (x : Nat) : x &&& 0xFF = x % 256 := by
  have h := Nat.and_pow_two_sub_one_eq_mod x 8
  norm_num at h
  exact h

theorem shr_div (x k : Nat) : x >>> k = x / 2 ^ k := Nat.shiftRight_eq_div_pow x k

theorem or16_eq (a c : Nat) (hc : c < 65536) : (a <<< 16) ||| c = 65536 * a + c := by
  have h := Nat.mul_add_lt_is_or (i := 16) (b := c) (by omega) a
  norm_num at h
  rw [Nat.shiftLeft_eq, Nat.mul_comm]
  norm_num
  omega

/-! ## Feistel block cipher: round inversion (claim C2) -/

theorem round_function_lt (sb : List Nat) (x k : Nat) : round_function sb x k < 2 ^ 16 := by
  have h1 : k &&& 0xFFFF < 2 ^ 16 := by
    have h2 := Nat.and_le_right (n := k) (m := 0xFFFF)
    norm_num at h2 ⊢
    omega
  exact Nat.xor_lt_two_pow (p_box_lt _) h1

theorem enc_rounds_lt (sb : List Nat) (sks : List Nat) :
    ∀ l r, l < 2 ^ 16 → r < 2 ^ 16 →
      (enc_rounds sb sks (l, r)).1 < 2 ^ 16 ∧ (enc_rounds sb sks (l, r)).2 < 2 ^ 16 := by
  induction sks with
  | nil => intro l r hl hr; exact ⟨hl, hr⟩
  | cons k ks ih =>
      intro l r hl hr
      exact ih r (l ^^^ round_function sb r k) hr
        (Nat.xor_lt_two_pow hl (round_function_lt sb r k))

theorem dec_rounds_append (sb : List Nat) (xs ys : List Nat) :
    ∀ p, dec_rounds sb (xs ++ ys) p = dec_rounds sb ys (dec_rounds sb xs p) := by
  induction xs with
  | nil => intro p; rfl
  | cons k ks ih =>
      intro p
      rcases p with ⟨l, r⟩
      simp only [List.cons_append, dec_rounds]
      exact ih _

theorem dec_rounds_enc_rounds (sb : List Nat) (sks : List Nat) :
    ∀ l r, dec_rounds sb sks.reverse (enc_rounds sb sks (l, r)) = (l, r) := by
  induction sks with
  | nil => intro l r; rfl
  | cons k ks ih =>
      intro l r
      rw [List.reverse_cons, dec_rounds_append]
      show dec_rounds sb [k] (dec_rounds sb ks.reverse (enc_rounds sb ks
        (r, l ^^^ round_function sb r k))) = (l, r)
      rw [ih r (l ^^^ round_function sb r k)]
      show (((l ^^^ round_function sb r k) ^^^ round_function sb r k), r) = (l, r)
      rw [Nat.xor_cancel_right]

theorem gen_subkeys_fst (r : Nat) : ∀ s, (gen_subkeys s r).1 = lfsrIter r s := by
  induction r with
  | zero => intro s; rfl
  | succ r ih => intro s; exact ih (lfsr_step s).1

theorem encrypt_block_state (sb : List Nat) (b s r : Nat) :
    (encrypt_block sb b s r).2 = lfsrIter r s := by
  simp only [encrypt_block, gen_subkeys_fst]

theorem decrypt_block_state (sb : List Nat) (b s r : Nat) :
    (decrypt_block sb b s r).2 = lfsrIter r s := by
  simp only [decrypt_block, gen_subkeys_fst]

theorem combine_lt (x y : Nat) : ((x &&& 0xFFFF) <<< 16) ||| (y &&& 0xFFFF) < 2 ^ 32 := by
  have hx : x &&& 0xFFFF < 65536 := by rw [and_FFFF]; omega
  have hy : y &&& 0xFFFF < 65536 := by rw [and_FFFF]; omega
  rw [or16_eq _ _ hy]
  omega

theorem encrypt_block_fst_lt (sb : List Nat) (b s r : Nat) :
    (encrypt_block sb b s r).1 < 2 ^ 32 := by
  unfold encrypt_block
  dsimp only
  exact combine_lt _ _

theorem decrypt_encrypt_block (sb : List Nat) (b s r : Nat) (hb : b < 2 ^ 32) :
    decrypt_block sb (encrypt_block sb b s r).1 s r = (b, lfsrIter r s) := by
  unfold encrypt_block decrypt_block
  dsimp only
  rw [gen_subkeys_fst]
  have hl0 : (b >>> 16) &&& 0xFFFF < 2 ^ 16 := by rw [and_FFFF]; norm_num; omega
  have hr0 : b &&& 0xFFFF < 2 ^ 16 := by rw [and_FFFF]; norm_num; omega
  obtain ⟨he1, he2⟩ := enc_rounds_lt sb (gen_subkeys s r).2 _ _ hl0 hr0
  set e := enc_rounds sb (gen_subkeys s r).2 ((b >>> 16) &&& 0xFFFF, b &&& 0xFFFF) with hedef
  have hm1 : e.1 &&& 0xFFFF = e.1 := by rw [and_FFFF]; omega
  have hm2 : e.2 &&& 0xFFFF = e.2 := by rw [and_FFFF]; omega
  rw [hm1, hm2]
  have hsplit1 : (((e.1 <<< 16) ||| e.2) >>> 16) &&& 0xFFFF = e.1 := by
    rw [or16_eq _ _ (by omega), shr_div, and_FFFF]
    norm_num
    omega
  have hsplit2 : ((e.1 <<< 16) ||| e.2) &&& 0xFFFF = e.2 := by
    rw [or16_eq _ _ (by omega), and_FFFF]
    omega
  rw [hsplit1, hsplit2]
  have hde : dec_rounds sb (gen_subkeys s r).2.reverse (e.1, e.2) =
      ((b >>> 16) &&& 0xFFFF, b &&& 0xFFFF) := by
    rw [hedef]
    exact dec_rounds_enc_rounds sb (gen_subkeys s r).2 _ _
  rw [hde]
  dsimp only
  rw [and_FFFF ((b >>> 16) &&& 0xFFFF), and_FFFF (b &&& 0xFFFF),
    and_FFFF (b >>> 16), and_FFFF b]
  rw [Nat.mod_mod, Nat.mod_mod]
  rw [or16_eq _ _ (by omega), shr_div]
  norm_num
  omega

/-- C2: for every 32-bit block `b`, every LFSR seed `s` and every
`rounds ≥ 1` (and in fact any S-box table `sb`), decrypting the cipher
block produced by `encrypt_block` with the same seed and round count
returns `b`; and both calls report the same final LFSR state —
`lfsrIter rounds s` — regardless of the block data. -/
theorem claim_C2_block_roundtrip (sb : List Nat) (b s r : Nat)
    (hb : b < 2 ^ 32) (_hr : 1 ≤ r) :
    (decrypt_block sb (encrypt_block sb b s r).1 s r).1 = b ∧
    (encrypt_block sb b s r).2 = lfsrIter r s ∧
    (∀ b', (decrypt_block sb b' s r).2 = (encrypt_block sb b s r).2) :=
  ⟨by rw [decrypt_encrypt_block sb b s r hb],
   encrypt_block_state sb b s r,
   fun b' => by rw [decrypt_block_state, encrypt_block_state]⟩

/-- Witness for C2 at `b = 0x01234567`, `s = 1`, `r = 4`, with the
identity S-box table. -/
theorem claim_C2_block_roundtrip_witness :
    (0x01234567 : Nat) < 2 ^ 32 ∧ (1 : Nat) ≤ 4 ∧
    (decrypt_block (List.range 16) (encrypt_block (List.range 16) 0x01234567 1 4).1 1 4).1 =
      0x01234567 :=
  ⟨by decide, by decide,
   (claim_C2_block_roundtrip (List.range 16) 0x01234567 1 4 (by decide) (by decide)).1⟩

/-! ## S-box generation: shuffling yields a permutation (claim C4) -/

theorem cons_set_perm (xs : List Nat) (k : Nat) (hk : k < xs.length) (x : Nat) :
    (xs.getD k 0 :: xs.set k x).Perm (x :: xs) := by
  induction xs generalizing k with
  | nil => simp at hk
  | cons y ys ih =>
      cases k with
      | zero =>
          simp only [List.getD_cons_zero, List.set_cons_zero]
          exact List.Perm.swap x y ys
      | succ k =>
          have hk' : k < ys.length := by simpa using hk
          simp only [List.getD_cons_succ, List.set_cons_succ]
          exact ((List.Perm.swap y (ys.getD k 0) (ys.set k x)).trans
            ((ih k hk').cons y)).trans (List.Perm.swap x y ys)

theorem swapList_perm (l : List Nat) (i j : Nat) (hi : i < l.length) (hj : j < l.length) :
    (swapList l i j).Perm l := by
  induction l generalizing i j with
  | nil => simp at hi
  | cons x xs ih =>
      cases i with
      | zero =>
          cases j with
          | zero => simp [swapList]
          | succ k =>
              have hk : k < xs.length := by simpa using hj
              simp only [swapList, List.getD_cons_succ, List.getD_cons_zero,
                List.set_cons_zero, List.set_cons_succ]
              exact cons_set_perm xs k hk x
      | succ m =>
          cases j with
          | zero =>
              have hm : m < xs.length := by simpa using hi
              simp only [swapList, List.getD_cons_succ, List.getD_cons_zero,
                List.set_cons_zero, List.set_cons_succ]
              exact cons_set_perm xs m hm x
          | succ k =>
              have hm : m < xs.length := by simpa using hi
              have hk : k < xs.length := by simpa using hj
              simp only [swapList, List.getD_cons_succ, List.set_cons_succ]
              exact (ih m k hm hk).cons x

theorem swapList_length (l : List Nat) (i j : Nat) :
    (swapList l i j).length = l.length := by
  simp [swapList]

theorem fyLoop_perm (seed : Nat) :
    ∀ n l, n < l.length → (fyLoop seed n l).Perm l := by
  intro n
  induction n with
  | zero => intro l _; exact List.Perm.refl l
  | succ n ih =>
      intro l hn
      have hj : randbelow seed (n + 1) (n + 2) < n + 2 :=
        Nat.mod_lt _ (by omega)
      have hjl : randbelow seed (n + 1) (n + 2) < l.length := by omega
      have hswap := swapList_perm l (n + 1) (randbelow seed (n + 1) (n + 2)) hn hjl
      have hlen : (swapList l (n + 1) (randbelow seed (n + 1) (n + 2))).length = l.length :=
        swapList_length _ _ _
      exact (ih _ (by omega)).trans hswap

theorem generate_s_box_fst_eq (key : Nat) :
    (generate_s_box key).1 = fyLoop key 15 (List.range 16) := by
  simp only [generate_s_box]

theorem generate_s_box_snd_eq (key : Nat) :
    (generate_s_box key).2 =
      ((fyLoop key 15 (List.range 16)).enum).foldl (fun acc p => acc.set p.2 p.1)
        (List.replicate 16 0) := by
  simp only [generate_s_box]

theorem generate_s_box_fst_perm (key : Nat) :
    ((generate_s_box key).1).Perm (List.range 16) := by
  rw [generate_s_box_fst_eq]
  exact fyLoop_perm key 15 (List.range 16) (by simp)

theorem foldl_set_getD_of_not_snd_mem (pairs : List (Nat × Nat)) (acc : List Nat) (v : Nat)
    (h : ∀ p ∈ pairs, p.2 ≠ v) :
    (pairs.foldl (fun a p => a.set p.2 p.1) acc).getD v 0 = acc.getD v 0 := by
  induction pairs generalizing acc with
  | nil => rfl
  | cons q rest ih =>
      simp only [List.foldl_cons]
      rw [ih _ (fun p hp => h p (by simp [hp]))]
      simp only [List.getD_eq_getElem?_getD]
      rw [List.getElem?_set_ne (h q (by simp))]

theorem buildInv_getD (bx : List Nat) :
    ∀ (s : Nat) (acc : List Nat), bx.Nodup → (∀ v ∈ bx, v < acc.length) →
    ∀ k, k < bx.length →
      ((bx.enumFrom s).foldl (fun a p => a.set p.2 p.1) acc).getD (bx.getD k 0) 0 = s + k := by
  induction bx with
  | nil => intro s acc _ _ k hk; simp at hk
  | cons v rest ih =>
      intro s acc hnd hlt k hk
      simp only [List.enumFrom_cons, List.foldl_cons]
      cases k with
      | zero =>
          simp only [List.getD_cons_zero]
          have hni : v ∉ rest := (List.nodup_cons.mp hnd).1
          rw [foldl_set_getD_of_not_snd_mem _ _ _ (by
            intro p hp
            have hmem : p.2 ∈ rest := by
              have hms := List.enumFrom_map_snd (s + 1) rest
              have hm : p.2 ∈ (rest.enumFrom (s + 1)).map Prod.snd :=
                List.mem_map_of_mem _ hp
              rwa [hms] at hm
            intro hpv
            exact hni (hpv ▸ hmem))]
          have hv : v < acc.length := hlt v (by simp)
          simp only [List.getD_eq_getElem?_getD]
          rw [List.getElem?_set_self (by simpa using hv)]
          simp
      | succ k =>
          simp only [List.getD_cons_succ]
          have h1 := ih (s + 1) (acc.set v s) (List.nodup_cons.mp hnd).2
            (fun w hw => by simpa using hlt w (by simp [hw])) k (by simpa using hk)
          rw [h1]
          omega

/-- C4: for every seed, `generate_s_box` returns a pair whose first
component is a permutation of `0..15`, whose second component is its
exact inverse (`inv_box[box[i]] = i` for `i < 16`), and which is
deterministic in the seed.  (The seeded generator behind `random.Random`
is spec-modelled; see `rngWord`.) -/
theorem claim_C4_sbox_bijective (key : Nat) :
    ((generate_s_box key).1).Perm (List.range 16) ∧
    (∀ i, i < 16 →
      (generate_s_box key).2.getD ((generate_s_box key).1.getD i 0) 0 = i) ∧
    (∀ key', key = key' → generate_s_box key = generate_s_box key') := by
  have hperm := generate_s_box_fst_perm key
  refine ⟨hperm, ?_, fun key' h => h ▸ rfl⟩
  intro i hi
  have hnd : ((generate_s_box key).1).Nodup :=
    hperm.nodup_iff.mpr (List.nodup_range 16)
  have hlen : ((generate_s_box key).1).length = 16 := by
    have := hperm.length_eq
    simpa using this
  have hlt : ∀ v ∈ (generate_s_box key).1, v < (List.replicate 16 0).length := by
    intro v hv
    have : v ∈ List.range 16 := hperm.mem_iff.mp hv
    simpa using List.mem_range.mp this
  have h := buildInv_getD (generate_s_box key).1 0 (List.replicate 16 0)
    hnd hlt i (by omega)
  rw [generate_s_box_snd_eq, ← generate_s_box_fst_eq, List.enum_eq_enumFrom]
  simpa using h

/-- Witness for C4 at `key = 0xDEADBEEF`, `i = 7`. -/
theorem claim_C4_sbox_bijective_witness :
    (7 : Nat) < 16 ∧
    (generate_s_box 0xDEADBEEF).2.getD ((generate_s_box 0xDEADBEEF).1.getD 7 0) 0 = 7 :=
  ⟨by decide, (claim_C4_sbox_bijective 0xDEADBEEF).2.1 7 (by decide)⟩

/-! ## Padding (claims C6, C7, C10) -/

theorem pad_pkcs7_eq (m : List Nat) :
    pad_pkcs7 m 4 = m ++ List.replicate (4 - m.length % 4) (4 - m.length % 4) := by
  have h : ¬(4 - m.length % 4 = 0) := by omega
  simp [pad_pkcs7, h]

theorem getLast_pad (m : List Nat) (n : Nat) (hn : 1 ≤ n) :
    (m ++ List.replicate n n).getLast? = some n := by
  rcases n with _ | k
  · omega
  · rw [List.replicate_succ', ← List.append_assoc, List.getLast?_concat]

theorem unpad_pad (m : List Nat) : unpad_pkcs7 (pad_pkcs7 m 4) 4 = .ok m := by
  have hlt : m.length % 4 < 4 := by omega
  set n := 4 - m.length % 4 with hn
  have hn1 : 1 ≤ n := by omega
  have hn4 : n ≤ 4 := by omega
  rw [pad_pkcs7_eq, ← hn]
  rw [unpad_pkcs7, getLast_pad m n hn1]
  dsimp only
  have hcond : ¬(n < 1 ∨ n > 4) := by omega
  rw [if_neg hcond]
  have hlen : (m ++ List.replicate n n).length = m.length + n := by simp
  have hslice : lastSlice (m ++ List.replicate n n) n = List.replicate n n := by
    rw [lastSlice, hlen]
    have hme : m.length + n - n = m.length := by omega
    rw [hme, List.drop_left]
  have hany : (lastSlice (m ++ List.replicate n n) n).any (fun p => p ≠ n) = false := by
    rw [hslice]
    simp
  rw [hany]
  simp only [Bool.false_eq_true, if_false]
  have hdrop : dropLastSlice (m ++ List.replicate n n) n = m := by
    rw [dropLastSlice, hlen]
    have hme : m.length + n - n = m.length := by omega
    rw [hme, List.take_left]
  rw [hdrop]

/-- C6: `unpad_pkcs7 (pad_pkcs7 m 4) 4 = m` for every byte sequence `m`;
`pad_pkcs7` appends `n` bytes of value `n` with `n = 4 - len(m) % 4`
(which is 4 exactly when the length is already a multiple of 4), so
`1 ≤ n ≤ 4` and the padded length is a multiple of 4. -/
theorem claim_C6_pad_roundtrip (m : List Nat) :
    unpad_pkcs7 (pad_pkcs7 m 4) 4 = .ok m ∧
    pad_pkcs7 m 4 = m ++ List.replicate (4 - m.length % 4) (4 - m.length % 4) ∧
    1 ≤ 4 - m.length % 4 ∧ 4 - m.length % 4 ≤ 4 ∧
    (m.length % 4 = 0 → 4 - m.length % 4 = 4) ∧
    (pad_pkcs7 m 4).length % 4 = 0 := by
  refine ⟨unpad_pad m, pad_pkcs7_eq m, by omega, by omega, by omega, ?_⟩
  rw [pad_pkcs7_eq]
  simp only [List.length_append, List.length_replicate]
  omega

/-- Witness for C6 at `m = []` (whose length is a multiple of 4, so the
pad length is exactly 4). -/
theorem claim_C6_pad_roundtrip_witness :
    unpad_pkcs7 (pad_pkcs7 [] 4) 4 = .ok ([] : List Nat) ∧
    4 - ([] : List Nat).length % 4 = 4 :=
  ⟨(claim_C6_pad_roundtrip []).1, (claim_C6_pad_roundtrip []).2.2.2.2.1 (by decide)⟩

/-- C7: for a non-empty buffer `d` whose last byte is `n`,
`unpad_pkcs7 d bs` fails with `InvalidPadding` iff `n < 1`, `n > bs`, or
some byte among the final `n` bytes (Python's `d[-n:]`) differs from `n`;
on success it strips the last `n` bytes (Python's `d[:-n]`). -/
theorem claim_C7_unpad_validation (d : List Nat) (n bs : Nat) (h : d.getLast? = some n) :
    (unpad_pkcs7 d bs = .error .invalidPadding ↔
      (n < 1 ∨ n > bs ∨ ∃ p ∈ lastSlice d n, p ≠ n)) ∧
    ((¬(n < 1 ∨ n > bs ∨ ∃ p ∈ lastSlice d n, p ≠ n)) →
      unpad_pkcs7 d bs = .ok (dropLastSlice d n)) := by
  rw [unpad_pkcs7, h]
  dsimp only
  by_cases h1 : n < 1 ∨ n > bs
  · rw [if_pos h1]
    refine ⟨⟨fun _ => by tauto, fun _ => rfl⟩, fun hc => absurd (by tauto :
      n < 1 ∨ n > bs ∨ ∃ p ∈ lastSlice d n, p ≠ n) hc⟩
  · rw [if_neg h1]
    by_cases h2 : (lastSlice d n).any (fun p => p ≠ n) = true
    · rw [if_pos h2]
      have hex : ∃ p ∈ lastSlice d n, p ≠ n := by simpa using h2
      refine ⟨⟨fun _ => by tauto, fun _ => rfl⟩, fun hc => absurd (by tauto :
        n < 1 ∨ n > bs ∨ ∃ p ∈ lastSlice d n, p ≠ n) hc⟩
    · rw [if_neg h2]
      have hnex : ¬ ∃ p ∈ lastSlice d n, p ≠ n := by simpa using h2
      refine ⟨⟨fun hcontr => Except.noConfusion hcontr, fun hc => ?_⟩, fun _ => rfl⟩
      rcases hc with hA | hB | hC
      · exact absurd (Or.inl hA) h1
      · exact absurd (Or.inr hB) h1
      · exact absurd hC hnex

/-- Witness for C7 at `d = [1, 2, 2]`, `n = 2`, `bs = 4`. -/
theorem claim_C7_unpad_validation_witness :
    ([1, 2, 2] : List Nat).getLast? = some 2 ∧
    unpad_pkcs7 [1, 2, 2] 4 = .ok (dropLastSlice [1, 2, 2] 2) :=
  ⟨by decide, (claim_C7_unpad_validation [1, 2, 2] 2 4 (by decide)).2 (by decide)⟩

/-- C10: decrypting an empty ciphertext fails, but with the `IndexError`
from `data[-1]` on an empty buffer in `unpad_pkcs7`, not with the
documented `InvalidPadding` error. -/
theorem claim_C10_empty_ciphertext (sb : List Nat) (k r : Nat) :
    decrypt_message sb [] k r = .error .indexError ∧
    PyErr.indexError ≠ PyErr.invalidPadding :=
  ⟨rfl, by decide⟩

/-! ## Byte/block conversions (claim C8 and message-level plumbing) -/

theorem int_from_to_bytes (b : Nat) (hb : b < 2 ^ 32) :
    int_from_bytes_be (int_to_bytes_be_4 b) = b := by
  simp only [int_to_bytes_be_4, int_from_bytes_be, List.foldl_cons, List.foldl_nil]
  rw [and_FF, and_FF, and_FF, and_FF, shr_div, shr_div, shr_div]
  norm_num
  omega

theorem int_to_from_bytes (a b c e : Nat) (ha : a < 256) (hbb : b < 256)
    (hc : c < 256) (he : e < 256) :
    int_to_bytes_be_4 (int_from_bytes_be [a, b, c, e]) = [a, b, c, e] := by
  simp only [int_from_bytes_be, List.foldl_cons, List.foldl_nil, int_to_bytes_be_4]
  rw [and_FF, and_FF, and_FF, and_FF, shr_div, shr_div, shr_div]
  norm_num
  refine ⟨?_, ?_, ?_, ?_⟩ <;> omega

theorem int_from_bytes_lt (l : List Nat) (hlen : l.length ≤ 4) (hb : ∀ x ∈ l, x < 256) :
    int_from_bytes_be l < 2 ^ 32 := by
  rcases l with _ | ⟨a, _ | ⟨b, _ | ⟨c, _ | ⟨e, rest⟩⟩⟩⟩
  · simp [int_from_bytes_be]
  · have := hb a (by simp)
    simp only [int_from_bytes_be, List.foldl_cons, List.foldl_nil]
    omega
  · have h1 := hb a (by simp)
    have h2 := hb b (by simp)
    simp only [int_from_bytes_be, List.foldl_cons, List.foldl_nil]
    omega
  · have h1 := hb a (by simp)
    have h2 := hb b (by simp)
    have h3 := hb c (by simp)
    simp only [int_from_bytes_be, List.foldl_cons, List.foldl_nil]
    omega
  · have hr : rest = [] := by
      rcases rest with _ | ⟨x, xs⟩
      · rfl
      · exfalso
        simp only [List.length_cons] at hlen
        omega
    subst hr
    have h1 := hb a (by simp)
    have h2 := hb b (by simp)
    have h3 := hb c (by simp)
    have h4 := hb e (by simp)
    simp only [int_from_bytes_be, List.foldl_cons, List.foldl_nil]
    omega

theorem bytes_to_blocks_lt (d : List Nat) (hb : ∀ x ∈ d, x < 256) :
    ∀ v ∈ bytes_to_blocks d, v < 2 ^ 32 := by
  induction d using bytes_to_blocks.induct with
  | case1 a b c e rest ih =>
      intro v hv
      rw [bytes_to_blocks] at hv
      rcases List.mem_cons.mp hv with h | h
      · subst h
        refine int_from_bytes_lt [a, b, c, e] (by simp) ?_
        intro x hx
        simp only [List.mem_cons, List.not_mem_nil, or_false] at hx
        rcases hx with h | h | h | h <;> exact h ▸ hb x (by simp [h])
      · exact ih (fun x hx => hb x (by simp [hx])) v h
  | case2 =>
      intro v hv
      simp [bytes_to_blocks] at hv
  | case3 l h1 h2 =>
      intro v hv
      rcases l with _ | ⟨a, _ | ⟨b, _ | ⟨c, _ | ⟨e, r⟩⟩⟩⟩
      · exact absurd rfl h2
      · have he : bytes_to_blocks [a] = [int_from_bytes_be [a]] := rfl
        rw [he] at hv
        simp only [List.mem_singleton] at hv
        subst hv
        exact int_from_bytes_lt [a] (by simp) hb
      · have he : bytes_to_blocks [a, b] = [int_from_bytes_be [a, b]] := rfl
        rw [he] at hv
        simp only [List.mem_singleton] at hv
        subst hv
        exact int_from_bytes_lt [a, b] (by simp) hb
      · have he : bytes_to_blocks [a, b, c] = [int_from_bytes_be [a, b, c]] := rfl
        rw [he] at hv
        simp only [List.mem_singleton] at hv
        subst hv
        exact int_from_bytes_lt [a, b, c] (by simp) hb
      · exact absurd rfl (h1 a b c e r)

theorem bytes_to_blocks_length (d : List Nat) :
    (bytes_to_blocks d).length = (d.length + 3) / 4 := by
  induction d using bytes_to_blocks.induct with
  | case1 a b c e rest ih =>
      rw [bytes_to_blocks]
      simp only [List.length_cons, ih]
      omega
  | case2 => rfl
  | case3 l h1 h2 =>
      rcases l with _ | ⟨a, _ | ⟨b, _ | ⟨c, _ | ⟨e, r⟩⟩⟩⟩
      · exact absurd rfl h2
      · rw [show bytes_to_blocks [a] = [int_from_bytes_be [a]] from rfl]
        simp
      · rw [show bytes_to_blocks [a, b] = [int_from_bytes_be [a, b]] from rfl]
        simp
      · rw [show bytes_to_blocks [a, b, c] = [int_from_bytes_be [a, b, c]] from rfl]
        simp
      · exact absurd rfl (h1 a b c e r)

/-- C8 is refuted: `bytes_to_blocks` on the 3-byte input `[1, 2, 3]`
does not fail at all — it returns the single block `0x010203` read from
the short trailing chunk.  No `MalformedInput` check exists in the
code. -/
theorem claim_C8_malformed_counterexample :
    ([1, 2, 3] : List Nat).length % 4 ≠ 0 ∧ bytes_to_blocks [1, 2, 3] = [66051] :=
  ⟨by decide, rfl⟩

/-- C8 (amended): `bytes_to_blocks` never fails; it always returns
`⌈len/4⌉` blocks, and on input whose length is not a multiple of 4 the
final block is the short trailing chunk (1-3 bytes) read big-endian. -/
theorem claim_C8_no_malformed_failure (d : List Nat) :
    (bytes_to_blocks d).length = (d.length + 3) / 4 ∧
    (d.length % 4 ≠ 0 →
      bytes_to_blocks d =
        bytes_to_blocks (d.take (4 * (d.length / 4))) ++
          [int_from_bytes_be (d.drop (4 * (d.length / 4)))]) := by
  refine ⟨bytes_to_blocks_length d, ?_⟩
  induction d using bytes_to_blocks.induct with
  | case1 a b c e rest ih =>
      intro hmod
      have hlen : (a :: b :: c :: e :: rest).length = rest.length + 4 := by simp
      have hd4 : 4 * ((a :: b :: c :: e :: rest).length / 4) =
          4 * (rest.length / 4) + 4 := by
        rw [hlen]
        omega
      rw [hd4]
      have htake : (a :: b :: c :: e :: rest).take (4 * (rest.length / 4) + 4) =
          a :: b :: c :: e :: rest.take (4 * (rest.length / 4)) := by
        simp [List.take_succ_cons]
      have hdrop : (a :: b :: c :: e :: rest).drop (4 * (rest.length / 4) + 4) =
          rest.drop (4 * (rest.length / 4)) := by
        simp [List.drop_succ_cons]
      rw [htake, hdrop, bytes_to_blocks, bytes_to_blocks]
      rw [ih (by rw [hlen] at hmod; omega)]
      simp
  | case2 =>
      intro hmod
      simp at hmod
  | case3 l h1 h2 =>
      intro hmod
      rcases l with _ | ⟨a, _ | ⟨b, _ | ⟨c, _ | ⟨e, r⟩⟩⟩⟩
      · exact absurd rfl h2
      · rw [show bytes_to_blocks [a] = [int_from_bytes_be [a]] from rfl]
        simp [bytes_to_blocks]
      · rw [show bytes_to_blocks [a, b] = [int_from_bytes_be [a, b]] from rfl]
        simp [bytes_to_blocks]
      · rw [show bytes_to_blocks [a, b, c] = [int_from_bytes_be [a, b, c]] from rfl]
        simp [bytes_to_blocks]
      · exact absurd rfl (h1 a b c e r)

/-- Witness for the amended C8 at the 3-byte input `[1, 2, 3]`. -/
theorem claim_C8_no_malformed_failure_witness :
    (bytes_to_blocks [1, 2, 3]).length = (([1, 2, 3] : List Nat).length + 3) / 4 ∧
    bytes_to_blocks [1, 2, 3] =
      bytes_to_blocks (([1, 2, 3] : List Nat).take (4 * (([1, 2, 3] : List Nat).length / 4))) ++
        [int_from_bytes_be (([1, 2, 3] : List Nat).drop (4 * (([1, 2, 3] : List Nat).length / 4)))] :=
  ⟨(claim_C8_no_malformed_failure [1, 2, 3]).1,
   (claim_C8_no_malformed_failure [1, 2, 3]).2 (by decide)⟩

/-! ## Message level (claims C1, C9) -/

theorem bytes_to_blocks_of_blocks (bs : List Nat) (h : ∀ b ∈ bs, b < 2 ^ 32) :
    bytes_to_blocks (blocks_to_bytes bs) = bs := by
  induction bs with
  | nil => rfl
  | cons b rest ih =>
      have hstep : blocks_to_bytes (b :: rest) =
          ((b >>> 24) &&& 0xFF) :: ((b >>> 16) &&& 0xFF) :: ((b >>> 8) &&& 0xFF) ::
            (b &&& 0xFF) :: blocks_to_bytes rest := rfl
      rw [hstep, bytes_to_blocks]
      rw [ih (fun x hx => h x (by simp [hx]))]
      congr 1
      exact int_from_to_bytes b (h b (by simp))

theorem blocks_to_bytes_of_bytes (d : List Nat) (hlen : d.length % 4 = 0)
    (hb : ∀ x ∈ d, x < 256) :
    blocks_to_bytes (bytes_to_blocks d) = d := by
  induction d using bytes_to_blocks.induct with
  | case1 a b c e rest ih =>
      rw [bytes_to_blocks]
      rw [show blocks_to_bytes (int_from_bytes_be [a, b, c, e] :: bytes_to_blocks rest) =
        int_to_bytes_be_4 (int_from_bytes_be [a, b, c, e]) ++
          blocks_to_bytes (bytes_to_blocks rest) from rfl]
      rw [ih (by simp at hlen ⊢; omega) (fun x hx => hb x (by simp [hx]))]
      rw [int_to_from_bytes a b c e (hb a (by simp)) (hb b (by simp)) (hb c (by simp))
        (hb e (by simp))]
      rfl
  | case2 => rfl
  | case3 l h1 h2 =>
      exfalso
      rcases l with _ | ⟨a, _ | ⟨b, _ | ⟨c, _ | ⟨e, r⟩⟩⟩⟩
      · exact h2 rfl
      · simp at hlen
      · simp at hlen
      · simp at hlen
      · exact h1 a b c e r rfl

theorem encrypt_blocks_fst_lt (sb : List Nat) (r : Nat) :
    ∀ (bs : List Nat) (s : Nat), ∀ v ∈ (encrypt_blocks sb r bs s).1, v < 2 ^ 32 := by
  intro bs
  induction bs with
  | nil => intro s v hv; simp [encrypt_blocks] at hv
  | cons b rest ih =>
      intro s v hv
      simp only [encrypt_blocks] at hv
      rcases List.mem_cons.mp hv with h | h
      · exact h ▸ encrypt_block_fst_lt sb b s r
      · exact ih _ v h

theorem decrypt_blocks_encrypt_blocks (sb : List Nat) (r : Nat) :
    ∀ (bs : List Nat) (s : Nat), (∀ b ∈ bs, b < 2 ^ 32) →
      (decrypt_blocks sb r (encrypt_blocks sb r bs s).1 s).1 = bs := by
  intro bs
  induction bs with
  | nil => intro s _; rfl
  | cons b rest ih =>
      intro s hb
      simp only [encrypt_blocks, decrypt_blocks]
      rw [decrypt_encrypt_block sb b s r (hb b (by simp))]
      rw [encrypt_block_state]
      exact congrArg (b :: ·) (ih (lfsrIter r s) (fun x hx => hb x (by simp [hx])))

/-- C1: for every byte sequence `m` (including the empty one) and every
key `k`, with the session S-box table generated from `k` and `rounds = 4`,
`decrypt_message (encrypt_message m k 4) k 4` returns exactly `m`. -/
theorem claim_C1_message_roundtrip (m : List Nat) (k : Nat) (hm : ∀ b ∈ m, b < 256) :
    decrypt_message (generate_s_box k).1 (encrypt_message (generate_s_box k).1 m k 4) k 4 =
      Except.ok m := by
  set sb := (generate_s_box k).1 with hsb
  have hpb : ∀ x ∈ pad_pkcs7 m 4, x < 256 := by
    rw [pad_pkcs7_eq]
    intro x hx
    rcases List.mem_append.mp hx with h | h
    · exact hm x h
    · have hx2 := List.eq_of_mem_replicate h
      omega
  have hpl : (pad_pkcs7 m 4).length % 4 = 0 := by
    rw [pad_pkcs7_eq]
    simp only [List.length_append, List.length_replicate]
    omega
  have hblk : ∀ v ∈ bytes_to_blocks (pad_pkcs7 m 4), v < 2 ^ 32 :=
    bytes_to_blocks_lt _ hpb
  have henc : ∀ v ∈ (encrypt_blocks sb 4 (bytes_to_blocks (pad_pkcs7 m 4)) k).1, v < 2 ^ 32 :=
    encrypt_blocks_fst_lt sb 4 _ k
  simp only [encrypt_message, decrypt_message]
  rw [bytes_to_blocks_of_blocks _ henc]
  rw [decrypt_blocks_encrypt_blocks sb 4 _ k hblk]
  rw [blocks_to_bytes_of_bytes _ hpl hpb]
  exact unpad_pad m

/-- Witness for C1 at `m = [72, 105]`, `k = 3`. -/
theorem claim_C1_message_roundtrip_witness :
    (∀ b ∈ ([72, 105] : List Nat), b < 256) ∧
    decrypt_message (generate_s_box 3).1
      (encrypt_message (generate_s_box 3).1 [72, 105] 3 4) 3 4 = Except.ok [72, 105] :=
  ⟨by decide, claim_C1_message_roundtrip [72, 105] 3 (by decide)⟩

theorem decrypt_blocks_length (sb : List Nat) (r : Nat) :
    ∀ (c : List Nat) (k : Nat), ((decrypt_blocks sb r c k).1).length = c.length := by
  intro c
  induction c with
  | nil => intro k; rfl
  | cons b rest ih =>
      intro k
      simp only [decrypt_blocks, List.length_cons]
      rw [ih]

/-- C9: if two ciphertext block sequences of the same length differ only
at block index `i`, then decrypting both (threading the LFSR state from
the same key) yields block sequences that agree at every index other than
`i`: the per-block subkey stream depends only on the key-seeded LFSR
chain, never on ciphertext content. -/
theorem claim_C9_block_independence (sb : List Nat) (r k : Nat) :
    ∀ (c1 c2 : List Nat) (i : Nat), c1.length = c2.length →
      (∀ j, j ≠ i → c1[j]? = c2[j]?) →
      ∀ j, j ≠ i →
        ((decrypt_blocks sb r c1 k).1)[j]? = ((decrypt_blocks sb r c2 k).1)[j]? := by
  intro c1
  induction c1 generalizing k with
  | nil =>
      intro c2 i hlen h j hj
      have hc2 : c2 = [] := List.length_eq_zero.mp hlen.symm
      subst hc2
      rfl
  | cons a t1 ih =>
      intro c2 i hlen h j hj
      rcases c2 with _ | ⟨b, t2⟩
      · simp at hlen
      · simp only [decrypt_blocks]
        rw [decrypt_block_state, decrypt_block_state]
        cases j with
        | zero =>
            have hab : a = b := by
              have h0 := h 0 hj
              simpa using h0
            subst hab
            simp
        | succ j' =>
            cases i with
            | zero =>
                have ht : t1 = t2 := by
                  apply List.ext_getElem?
                  intro n
                  have hn := h (n + 1) (by omega)
                  simpa using hn
                subst ht
                simp
            | succ i' =>
                simp only [List.getElem?_cons_succ]
                refine ih (lfsrIter r k) t2 i' (by simpa using hlen) ?_ j' (by omega)
                intro j'' hj''
                have hjj := h (j'' + 1) (by omega)
                simpa using hjj

/-- Witness for C9: ciphertext blocks `[1, 2]` and `[1, 3]` differ only at
index 1; decryption agrees at index 0. -/
theorem claim_C9_block_independence_witness :
    ((decrypt_blocks (List.range 16) 4 [1, 2] 9).1)[0]? =
      ((decrypt_blocks (List.range 16) 4 [1, 3] 9).1)[0]? :=
  claim_C9_block_independence (List.range 16) 4 9 [1, 2] [1, 3] 1 (by decide)
    (fun j hj => by
      rcases j with _ | ⟨_ | j⟩
      · rfl
      · exact absurd rfl hj
      · simp)
    0 (by decide)

end Feistel
